import Mathlib

/-!
Shallow embedding of the time-series maintenance core of the
`okx-lending-rate` repository: the monthly rollover (`performRollover` in
the fetch script), the current-month backfill overwrite (the backfill
script's `fetchLendingRate`), the hourly duplicate-suppressing append
(`src/fetchRate.ts`), and the CSV load (`readCsvData`).

Timestamps in the code are ISO-8601 UTC strings manipulated through
JavaScript `Date` accessors (`getUTCFullYear`, `getUTCMonth`,
`getUTCDate`, `getUTCHours`, `getTime`).  A valid such string is modelled
by the structure `TS` holding the UTC calendar fields; chronological
order (`getTime` comparison) is the lexicographic order of the fields,
realised by the injective monotone key `TS.time`.  The process runs with
a UTC locale (GitHub Actions), so `Date.prototype.toDateString` equality
is (year, month, day) equality.
-/

namespace OkxRate

/-- UTC calendar fields of a valid ISO-8601 UTC timestamp.  `month` is
1-based (the code uses `getUTCMonth() + 1`). -/
structure TS where
  year : Nat
  month : Nat
  day : Nat
  hour : Nat
  minute : Nat
  second : Nat
deriving DecidableEq, Repr

/-- Chronological key of a timestamp: models `new Date(ts).getTime()`.
For timestamps with in-range calendar fields this weighted sum is
strictly monotone in chronological order. -/
def TS.time (t : TS) : Nat :=
  ((((t.year * 13 + t.month) * 32 + t.day) * 24 + t.hour) * 60 + t.minute) * 60
    + t.second

/-- One CSV row of a store: `{ timestamp, preRate }`.  The code keeps
`preRate` as the raw string taken from the API payload. -/
structure Record where
  ts : TS
  preRate : String
deriving DecidableEq, Repr

/-- The comparator used by every `sort((a, b) => new Date(a).getTime() -
new Date(b).getTime())` call in the code. -/
def timeLE (a b : Record) : Prop := a.ts.time ≤ b.ts.time

instance : DecidableRel timeLE := fun a b => inferInstanceAs (Decidable (a.ts.time ≤ b.ts.time))

instance : IsTotal Record timeLE := ⟨fun a b => Nat.le_total a.ts.time b.ts.time⟩

instance : IsTrans Record timeLE := ⟨fun _ _ _ => Nat.le_trans⟩

/-- Ascending chronological sort; JavaScript `Array.prototype.sort` is
stable (Node ≥ 12), as is insertion sort. -/
def sortByTime (l : List Record) : List Record := l.insertionSort timeLE

/-- Left-pad a month number to two digits: `String(m).padStart(2, '0')`. -/
def pad2 (n : Nat) : String :=
  if n < 10 then "0" ++ toString n else toString n

/-- Month key of a timestamp: `getMonthKey` in the fetch script returns
the string `` `${getUTCFullYear()}-${pad(getUTCMonth() + 1)}` ``. -/
def getMonthKey (t : TS) : String :=
  toString t.year ++ "-" ++ pad2 t.month

/-- The durable state the scripts touch: the live CSV (`data/rates.csv`,
`none` when the file does not exist) and the archive CSVs
(`data/YYYY-MM.csv`), as an association list keyed by month key. -/
structure FS where
  live : Option (List Record)
  archives : List (String × List Record)
deriving DecidableEq, Repr

/-- Records of the live store, empty when the file is missing. -/
def liveRecs (fs : FS) : List Record := fs.live.getD []

/-- Replace the value at a key in an association list, or add the entry
at the end when the key is absent (writing a fresh file). -/
def setEntry : List (String × List Record) → String → List Record →
    List (String × List Record)
  | [], k, v => [(k, v)]
  | (k', v') :: rest, k, v =>
    if k' = k then (k, v) :: rest else (k', v') :: setEntry rest k v

/-- Look up a key in an association list. -/
def getEntry : List (String × List Record) → String → Option (List Record)
  | [], _ => none
  | (k', v') :: rest, k => if k' = k then some v' else getEntry rest k

/-- Overwrite one archive file (`writeCsvData(archivePath, data, false)`). -/
def setArchive (fs : FS) (k : String) (v : List Record) : FS :=
  { fs with archives := setEntry fs.archives k v }

/-- Contents of one archive file (empty when it does not exist). -/
def getArchive (fs : FS) (k : String) : List Record :=
  ((getEntry fs.archives k).map id).getD []

/-- One step of the month grouping: push `r` onto the bucket of key `k`,
creating the bucket at the end if absent.  Models `Map.set`/`push` with
JavaScript `Map` insertion-order iteration semantics. -/
def addRec : List (String × List Record) → String → Record →
    List (String × List Record)
  | [], k, r => [(k, [r])]
  | (k', rs) :: rest, k, r =>
    if k' = k then (k', rs ++ [r]) :: rest else (k', rs) :: addRec rest k r

/-- Fold of `addRec` over the store contents. -/
def groupAux : List (String × List Record) → List Record →
    List (String × List Record)
  | acc, [] => acc
  | acc, r :: rest => groupAux (addRec acc (getMonthKey r.ts) r) rest

/-- The `dataByMonth` map built by `performRollover`: group the store's
records by the month key computed from each record's own timestamp. -/
def groupByMonth (l : List Record) : List (String × List Record) :=
  groupAux [] l

/-- The archive-writing loop of `performRollover`: for each (already
filtered non-current) month group, sort it and overwrite the archive. -/
def writeArchives : FS → List (String × List Record) → FS
  | fs, [] => fs
  | fs, (k, recs) :: rest => writeArchives (setArchive fs k (sortByTime recs)) rest

/-- The rollover (`performRollover` in the fetch script), as a pure state
transformer.  `ck` is the invocation-time current month key
(`getMonthKey(new Date().toISOString())`).  Missing or empty live file:
no-op.  Otherwise: group by month; overwrite one archive per non-current
month with that month's records sorted; if any non-current month existed
(`hasRollover`), rewrite the live file with the current-month records
sorted (header-only, i.e. empty, when there are none). -/
def performRollover (ck : String) (fs : FS) : FS :=
  match fs.live with
  | none => fs
  | some data =>
    if data = [] then fs
    else
      let groups := groupByMonth data
      let nonCur := groups.filter fun p => p.1 ≠ ck
      let fs1 := writeArchives fs nonCur
      if nonCur = [] then fs1
      else
        let cur := (getEntry groups ck).getD []
        if cur = [] then { fs1 with live := some [] }
        else { fs1 with live := some (sortByTime cur) }

/-- The persistence step of the backfill script's `fetchLendingRate`:
an empty fetched batch returns without touching the file; otherwise the
batch is sorted chronologically and `data/rates.csv` is overwritten with
exactly that batch (no read of existing contents takes place). -/
def backfill (fs : FS) (batch : List Record) : FS :=
  if batch = [] then fs
  else { fs with live := some (sortByTime batch) }

/-- The duplicate-suppressing append of `src/fetchRate.ts` (also in the
fetch script): read the CSV, look at the LAST data line only, and skip
when it has the same UTC hour (`getUTCHours`) and the same calendar date
(`toDateString`, UTC locale) as the candidate; otherwise append the
candidate at the end.  Returns the new contents and `true` when the
candidate was written (`false` = "skipped, duplicate"). -/
def upsertHourly (store : List Record) (cand : Record) :
    List Record × Bool :=
  match store.getLast? with
  | none => (store ++ [cand], true)
  | some last =>
    if last.ts.hour = cand.ts.hour ∧ last.ts.year = cand.ts.year ∧
        last.ts.month = cand.ts.month ∧ last.ts.day = cand.ts.day
    then (store, false)
    else (store ++ [cand], true)

/-! ### The write trace of the rollover

`writeCsvData(path, data, false)` performs two separate I/O operations:
`fs.writeFileSync(path, header)` (truncating the file to header-only)
followed by `csvWriter.writeRecords(data)` (appending the rows).  The
empty-current-month branch performs a single `writeFileSync` of the
header.  `rolloverOps` is the ordered trace of these primitive writes;
`applyFOp` gives each one its effect on the file state.  A prefix of the
trace models the state after an I/O failure at that point. -/

/-- Identity of a file touched by the rollover. -/
inductive FileId where
  | live : FileId
  | archive : String → FileId
deriving DecidableEq, Repr

/-- A primitive write: truncate a file to the CSV header, or append
record rows at its end. -/
inductive FOp where
  | header : FileId → FOp
  | append : FileId → List Record → FOp
deriving DecidableEq, Repr

/-- The file a primitive write touches. -/
def FOp.target : FOp → FileId
  | .header f => f
  | .append f _ => f

/-- Effect of one primitive write on the durable state. -/
def applyFOp (fs : FS) : FOp → FS
  | .header .live => { fs with live := some [] }
  | .append .live rs => { fs with live := some (fs.live.getD [] ++ rs) }
  | .header (.archive k) => setArchive fs k []
  | .append (.archive k) rs => setArchive fs k (getArchive fs k ++ rs)

/-- Effect of a sequence of primitive writes. -/
def applyOps (fs : FS) (ops : List FOp) : FS := ops.foldl applyFOp fs

/-- Trace of the archive-writing loop: per non-current month group, a
header truncation then a row append of the sorted group. -/
def archiveOps : List (String × List Record) → List FOp
  | [] => []
  | (k, recs) :: rest =>
    FOp.header (.archive k) :: FOp.append (.archive k) (sortByTime recs) ::
      archiveOps rest

/-- The ordered write trace of `performRollover`: all archive writes, in
month-group order, followed by the live-store rewrite (header truncation
then row append; header only when no current-month records exist).  No
writes at all when the live file is missing/empty or when every record
belongs to the current month. -/
def rolloverOps (ck : String) (live : Option (List Record)) : List FOp :=
  match live with
  | none => []
  | some data =>
    if data = [] then []
    else
      let groups := groupByMonth data
      let nonCur := groups.filter fun p => p.1 ≠ ck
      if nonCur = [] then []
      else
        let cur := (getEntry groups ck).getD []
        archiveOps nonCur ++
          (if cur = [] then [FOp.header .live]
           else [FOp.header .live, FOp.append .live (sortByTime cur)])

/-! ### Raw CSV load (rollover script's `readCsvData`) -/

/-- A raw CSV row as `csv-parser` delivers it: the two column strings,
with no validation applied. -/
structure RawRecord where
  timestamp : String
  preRate : String
deriving DecidableEq, Repr

/-- `readCsvData` of the fetch script: a missing file resolves to `[]`;
an existing file streams every row through unvalidated (csv-parser does
not inspect field contents) and resolves with all of them.  The promise
rejects only on stream-level errors, never on row contents, so the
result is always `.ok`. -/
def readCsvData (file : Option (List RawRecord)) :
    Except String (List RawRecord) :=
  match file with
  | none => .ok []
  | some rows => .ok rows

/-! ### Rate-string validation (`parseFloat` classification) -/

/-- Classification of a JavaScript number as the validation code sees
it: finite, `NaN`, or `±Infinity`. -/
inductive FloatClass where
  | finite : FloatClass
  | nan : FloatClass
  | infinite : FloatClass
deriving DecidableEq, Repr

/-- Drop one leading sign character, as `parseFloat` does. -/
def stripSign : List Char → List Char
  | '+' :: cs => cs
  | '-' :: cs => cs
  | cs => cs

/-- Classification of `parseFloat(s)` for the `isNaN(n) || !isFinite(n)`
check in `src/fetchRate.ts`: after leading whitespace and an optional
sign, a literal `Infinity` prefix parses to an infinity, a string
starting with a digit (or a dot followed by a digit) parses to a finite
number, and anything else is `NaN`.  (Decimal literals large enough to
overflow to `Infinity` do not occur as rate payloads and are ignored.) -/
def parseFloatClass (s : String) : FloatClass :=
  let cs := stripSign (s.toList.dropWhile fun c => c.isWhitespace)
  if cs.take 8 = "Infinity".toList then .infinite
  else
    match cs with
    | [] => .nan
    | c :: rest =>
      if c.isDigit then .finite
      else if c = '.' then
        match rest with
        | d :: _ => if d.isDigit then .finite else .nan
        | [] => .nan
      else .nan

/-- The live ingestion path of `src/fetchRate.ts`'s `fetchLendingRate`,
after the sample `(preRate, nowTs)` has been obtained: the non-finite
check throws (aborting with no write) before the CSV is touched;
otherwise the duplicate-suppressing append runs. -/
def ingestOne (preRate : String) (nowTs : TS) (store : List Record) :
    Except String (List Record × Bool) :=
  if parseFloatClass preRate = FloatClass.finite
  then .ok (upsertHourly store { ts := nowTs, preRate := preRate })
  else .error "Invalid preRate value"

/-- The record conversion inside the backfill script's
`fetchHistoricalRates`: each API row `(ts, rate)` is pushed as
`{ timestamp, preRate: rate }` with no finiteness check on the rate. -/
def convertHistory (rows : List (TS × String)) : List Record :=
  rows.map fun p => { ts := p.1, preRate := p.2 }

/-! ### The spec's merge policy, for stating the original claims

The specification's merge policy is NOT what the code implements; the
following definitions follow the spec's words and are used only to state
the original claims C1/C2 for refutation. -/

/-- The deduplication bucket: UTC (year, month, day, hour). -/
def bucketOf (t : TS) : Nat × Nat × Nat × Nat :=
  (t.year, t.month, t.day, t.hour)

/-- Modelled from the spec: deduplicate by bucket, first occurrence in
scan order surviving. -/
def dedupByBucket (l : List Record) : List Record :=
  l.foldl
    (fun acc r =>
      if acc.any fun x => bucketOf x.ts == bucketOf r.ts then acc
      else acc ++ [r])
    []

/-- Modelled from the spec: the merge policy of §4.2/§4.3 — union of
existing contents and batch, deduplicated by bucket, re-sorted
ascending. -/
def specMergeDedup (existing batch : List Record) : List Record :=
  sortByTime (dedupByBucket (existing ++ batch))

/-! ### Basic lemmas about the sort and the file-state helpers -/

theorem mem_sortByTime {x : Record} {l : List Record} :
    x ∈ sortByTime l ↔ x ∈ l :=
  List.mem_insertionSort timeLE

theorem sorted_sortByTime (l : List Record) :
    List.Sorted timeLE (sortByTime l) :=
  List.sorted_insertionSort timeLE l

theorem sortByTime_eq_nil {l : List Record} :
    sortByTime l = [] ↔ l = [] := by
  constructor
  · intro h
    have hp := List.perm_insertionSort timeLE l
    unfold sortByTime at h
    rw [h] at hp
    exact (List.perm_nil.mp hp.symm)
  · intro h
    rw [h]
    rfl

theorem getEntry_setEntry_self (l : List (String × List Record))
    (k : String) (v : List Record) :
    getEntry (setEntry l k v) k = some v := by
  induction l with
  | nil => simp [setEntry, getEntry]
  | cons p rest ih =>
    by_cases h : p.1 = k
    · simp [setEntry, getEntry, h]
    · simp [setEntry, getEntry, h, ih]

theorem getEntry_setEntry_ne (l : List (String × List Record))
    {k k' : String} (h : k' ≠ k) (v : List Record) :
    getEntry (setEntry l k v) k' = getEntry l k' := by
  have hkk : ¬k = k' := fun hh => h hh.symm
  induction l with
  | nil => simp [setEntry, getEntry, hkk]
  | cons p rest ih =>
    by_cases hp : p.1 = k
    · simp [setEntry, getEntry, hp, hkk]
    · simp [setEntry, getEntry, hp, ih]

theorem setEntry_setEntry (l : List (String × List Record))
    (k : String) (v w : List Record) :
    setEntry (setEntry l k v) k w = setEntry l k w := by
  induction l with
  | nil => simp [setEntry]
  | cons p rest ih =>
    by_cases h : p.1 = k
    · simp [setEntry, h]
    · simp [setEntry, h, ih]

theorem live_setArchive (fs : FS) (k : String) (v : List Record) :
    (setArchive fs k v).live = fs.live := rfl

theorem getArchive_setArchive_self (fs : FS) (k : String) (v : List Record) :
    getArchive (setArchive fs k v) k = v := by
  simp [getArchive, setArchive, getEntry_setEntry_self]

theorem getArchive_setArchive_ne (fs : FS) {k k' : String} (h : k' ≠ k)
    (v : List Record) :
    getArchive (setArchive fs k v) k' = getArchive fs k' := by
  simp [getArchive, setArchive, getEntry_setEntry_ne _ h]

theorem setArchive_setArchive (fs : FS) (k : String) (v w : List Record) :
    setArchive (setArchive fs k v) k w = setArchive fs k w := by
  simp [setArchive, setEntry_setEntry]

theorem live_writeArchives (fs : FS) (pairs : List (String × List Record)) :
    (writeArchives fs pairs).live = fs.live := by
  induction pairs generalizing fs with
  | nil => rfl
  | cons p rest ih => simpa [writeArchives] using ih (setArchive fs p.1 (sortByTime p.2))

theorem getArchive_writeArchives_of_not_mem (fs : FS)
    {pairs : List (String × List Record)} {k : String}
    (h : k ∉ pairs.map Prod.fst) :
    getArchive (writeArchives fs pairs) k = getArchive fs k := by
  induction pairs generalizing fs with
  | nil => rfl
  | cons p rest ih =>
    simp only [List.map_cons, List.mem_cons] at h
    push_neg at h
    rw [writeArchives, ih _ h.2, getArchive_setArchive_ne _ h.1]

theorem getArchive_writeArchives_of_mem (fs : FS)
    {pairs : List (String × List Record)} {k : String} {rs : List Record}
    (hnd : (pairs.map Prod.fst).Nodup) (h : (k, rs) ∈ pairs) :
    getArchive (writeArchives fs pairs) k = sortByTime rs := by
  induction pairs generalizing fs with
  | nil => cases h
  | cons p rest ih =>
    simp only [List.map_cons, List.nodup_cons] at hnd
    rcases List.mem_cons.mp h with h | h
    · subst h
      rw [writeArchives,
        getArchive_writeArchives_of_not_mem _ hnd.1,
        getArchive_setArchive_self]
    · rw [writeArchives]
      exact ih _ hnd.2 h

/-! ### Lemmas about the month grouping -/

theorem mem_of_getEntry_eq_some {l : List (String × List Record)}
    {k : String} {v : List Record} (h : getEntry l k = some v) :
    (k, v) ∈ l := by
  induction l with
  | nil => cases h
  | cons p rest ih =>
    by_cases hp : p.1 = k
    · rw [getEntry, if_pos hp] at h
      cases h
      have hpe : (k, p.2) = p := by
        rw [← hp]
      rw [hpe]
      exact List.mem_cons_self _ _
    · rw [getEntry, if_neg hp] at h
      exact List.mem_cons_of_mem _ (ih h)

theorem getEntry_eq_none {l : List (String × List Record)} {k : String}
    (h : k ∉ l.map Prod.fst) : getEntry l k = none := by
  induction l with
  | nil => rfl
  | cons p rest ih =>
    simp only [List.map_cons, List.mem_cons] at h
    push_neg at h
    rw [getEntry, if_neg (fun hh => h.1 hh.symm), ih h.2]

theorem keys_addRec (acc : List (String × List Record)) (k : String)
    (r : Record) :
    (addRec acc k r).map Prod.fst =
      if k ∈ acc.map Prod.fst then acc.map Prod.fst
      else acc.map Prod.fst ++ [k] := by
  induction acc with
  | nil => simp [addRec]
  | cons p rest ih =>
    by_cases hp : p.1 = k
    · simp [addRec, hp]
    · have : ¬k = p.1 := fun hh => hp hh.symm
      simp only [addRec, if_neg hp, List.map_cons, List.mem_cons, ih]
      by_cases hk : k ∈ rest.map Prod.fst
      · simp [hk, this]
      · simp [hk, this]

theorem getEntry_addRec_self (acc : List (String × List Record))
    (k : String) (r : Record) :
    getEntry (addRec acc k r) k = some ((getEntry acc k).getD [] ++ [r]) := by
  induction acc with
  | nil => simp [addRec, getEntry]
  | cons p rest ih =>
    by_cases hp : p.1 = k
    · simp [addRec, getEntry, hp]
    · simp [addRec, getEntry, hp, ih]

theorem getEntry_addRec_ne (acc : List (String × List Record))
    {k k' : String} (h : k' ≠ k) (r : Record) :
    getEntry (addRec acc k r) k' = getEntry acc k' := by
  have hkk : ¬k = k' := fun hh => h hh.symm
  induction acc with
  | nil => simp [addRec, getEntry, hkk]
  | cons p rest ih =>
    by_cases hp : p.1 = k
    · simp [addRec, getEntry, hp, hkk]
    · simp [addRec, getEntry, hp, ih]

/-- Every record stored under a key of the grouping has that key as its
own month key. -/
def WellKeyed (acc : List (String × List Record)) : Prop :=
  ∀ p ∈ acc, ∀ r ∈ p.2, getMonthKey r.ts = p.1

theorem wellKeyed_addRec {acc : List (String × List Record)} {k : String}
    {r : Record} (h : WellKeyed acc) (hk : getMonthKey r.ts = k) :
    WellKeyed (addRec acc k r) := by
  induction acc with
  | nil =>
    intro p hp x hx
    rcases List.mem_singleton.mp hp with rfl
    rcases List.mem_singleton.mp hx with rfl
    exact hk
  | cons q rest ih =>
    have hq : ∀ x ∈ q.2, getMonthKey x.ts = q.1 := h q (List.mem_cons_self _ _)
    have hrest : WellKeyed rest := fun p hp => h p (List.mem_cons_of_mem _ hp)
    by_cases hh : q.1 = k
    · intro p hp x hx
      rw [addRec, if_pos hh] at hp
      rcases List.mem_cons.mp hp with rfl | hp
      · rcases List.mem_append.mp hx with hx | hx
        · exact hq x hx
        · rcases List.mem_singleton.mp hx with rfl
          rw [hk, hh]
      · exact hrest p hp x hx
    · intro p hp x hx
      rw [addRec, if_neg hh] at hp
      rcases List.mem_cons.mp hp with rfl | hp
      · exact hq x hx
      · exact ih hrest p hp x hx

theorem nodupKeys_addRec {acc : List (String × List Record)} {k : String}
    {r : Record} (h : (acc.map Prod.fst).Nodup) :
    ((addRec acc k r).map Prod.fst).Nodup := by
  rw [keys_addRec]
  by_cases hk : k ∈ acc.map Prod.fst
  · rw [if_pos hk]
    exact h
  · rw [if_neg hk]
    refine List.Nodup.append h (List.nodup_singleton _) ?_
    intro a ha hb
    rcases List.mem_singleton.mp hb with rfl
    exact hk ha

theorem mem_getEntry_addRec {acc : List (String × List Record)}
    {k : String} {x : Record} (h : x ∈ (getEntry acc k).getD [])
    (k' : String) (r : Record) :
    x ∈ (getEntry (addRec acc k' r) k).getD [] := by
  by_cases hk : k = k'
  · subst hk
    rw [getEntry_addRec_self]
    simpa using Or.inl h
  · rw [getEntry_addRec_ne _ hk]
    exact h

theorem wellKeyed_groupAux {acc : List (String × List Record)}
    (h : WellKeyed acc) (l : List Record) : WellKeyed (groupAux acc l) := by
  induction l generalizing acc with
  | nil => exact h
  | cons r rest ih => exact ih (wellKeyed_addRec h rfl)

theorem wellKeyed_groupByMonth (l : List Record) :
    WellKeyed (groupByMonth l) :=
  wellKeyed_groupAux (fun p hp => absurd hp (List.not_mem_nil p)) l

theorem nodupKeys_groupAux {acc : List (String × List Record)}
    (h : (acc.map Prod.fst).Nodup) (l : List Record) :
    ((groupAux acc l).map Prod.fst).Nodup := by
  induction l generalizing acc with
  | nil => exact h
  | cons r rest ih => exact ih (nodupKeys_addRec h)

theorem nodupKeys_groupByMonth (l : List Record) :
    ((groupByMonth l).map Prod.fst).Nodup :=
  nodupKeys_groupAux (by simp) l

theorem mem_getEntry_groupAux {acc : List (String × List Record)}
    {k : String} {x : Record} (h : x ∈ (getEntry acc k).getD [])
    (l : List Record) : x ∈ (getEntry (groupAux acc l) k).getD [] := by
  induction l generalizing acc with
  | nil => exact h
  | cons r rest ih => exact ih (mem_getEntry_addRec h _ r)

theorem mem_group_of_mem {l : List Record} {r : Record} (hr : r ∈ l) :
    r ∈ (getEntry (groupByMonth l) (getMonthKey r.ts)).getD [] := by
  rw [groupByMonth]
  generalize hacc : ([] : List (String × List Record)) = acc
  clear hacc
  induction l generalizing acc with
  | nil => cases hr
  | cons x rest ih =>
    rcases List.mem_cons.mp hr with rfl | hr
    · rw [groupAux]
      apply mem_getEntry_groupAux
      rw [getEntry_addRec_self]
      simp
    · exact ih hr _

theorem keys_groupAux_sub {acc : List (String × List Record)}
    {l : List Record} {k : String}
    (hk : k ∈ (groupAux acc l).map Prod.fst) :
    k ∈ acc.map Prod.fst ∨ ∃ r ∈ l, getMonthKey r.ts = k := by
  induction l generalizing acc with
  | nil => exact Or.inl hk
  | cons x rest ih =>
    rw [groupAux] at hk
    rcases ih hk with h | h
    · rw [keys_addRec] at h
      by_cases hx : getMonthKey x.ts ∈ acc.map Prod.fst
      · rw [if_pos hx] at h
        exact Or.inl h
      · rw [if_neg hx] at h
        rcases List.mem_append.mp h with h | h
        · exact Or.inl h
        · rcases List.mem_singleton.mp h with rfl
          exact Or.inr ⟨x, List.mem_cons_self _ _, rfl⟩
    · rcases h with ⟨r, hr, hrk⟩
      exact Or.inr ⟨r, List.mem_cons_of_mem _ hr, hrk⟩

theorem keys_groupByMonth {l : List Record} {k : String}
    (hk : k ∈ (groupByMonth l).map Prod.fst) :
    ∃ r ∈ l, getMonthKey r.ts = k := by
  rcases keys_groupAux_sub hk with h | h
  · cases h
  · exact h

/-! ### Branch equations for the rollover -/

theorem performRollover_none {ck : String} {fs : FS} (h : fs.live = none) :
    performRollover ck fs = fs := by
  simp [performRollover, h]

theorem performRollover_emptyLive {ck : String} {fs : FS}
    (h : fs.live = some []) : performRollover ck fs = fs := by
  simp [performRollover, h]

theorem performRollover_eq {ck : String} {fs : FS} {l : List Record}
    (h : fs.live = some l) (hne : l ≠ []) :
    performRollover ck fs =
      (if (groupByMonth l).filter (fun p => p.1 ≠ ck) = [] then
        writeArchives fs ((groupByMonth l).filter fun p => p.1 ≠ ck)
      else if (getEntry (groupByMonth l) ck).getD [] = [] then
        { writeArchives fs ((groupByMonth l).filter fun p => p.1 ≠ ck) with
            live := some [] }
      else
        { writeArchives fs ((groupByMonth l).filter fun p => p.1 ≠ ck) with
            live := some (sortByTime ((getEntry (groupByMonth l) ck).getD [])) }) := by
  simp only [performRollover, h]
  rw [if_neg hne]

theorem rolloverOps_eq {ck : String} {live : Option (List Record)}
    {l : List Record} (h : live = some l) (hne : l ≠ []) :
    rolloverOps ck live =
      (if (groupByMonth l).filter (fun p => p.1 ≠ ck) = [] then []
      else
        archiveOps ((groupByMonth l).filter fun p => p.1 ≠ ck) ++
          (if (getEntry (groupByMonth l) ck).getD [] = [] then
            [FOp.header .live]
          else
            [FOp.header .live,
              FOp.append .live (sortByTime ((getEntry (groupByMonth l) ck).getD []))])) := by
  simp only [rolloverOps, h]
  rw [if_neg hne]

/-! ### Lemmas about the write trace -/

theorem target_ne_live_of_mem_archiveOps {pairs : List (String × List Record)}
    {op : FOp} (h : op ∈ archiveOps pairs) : op.target ≠ FileId.live := by
  induction pairs with
  | nil => cases h
  | cons p rest ih =>
    rw [archiveOps] at h
    rcases List.mem_cons.mp h with rfl | h
    · simp [FOp.target]
    · rcases List.mem_cons.mp h with rfl | h
      · simp [FOp.target]
      · exact ih h

theorem live_applyFOp_of_target_ne (fs : FS) {op : FOp}
    (h : op.target ≠ FileId.live) : (applyFOp fs op).live = fs.live := by
  cases op with
  | header f =>
    cases f with
    | live => exact absurd rfl h
    | archive k => rfl
  | append f rs =>
    cases f with
    | live => exact absurd rfl h
    | archive k => rfl

theorem live_applyOps_of_no_live (fs : FS) {ops : List FOp}
    (h : ∀ op ∈ ops, op.target ≠ FileId.live) :
    (applyOps fs ops).live = fs.live := by
  induction ops generalizing fs with
  | nil => rfl
  | cons op rest ih =>
    have h1 : (applyOps (applyFOp fs op) rest).live = (applyFOp fs op).live :=
      ih _ fun o ho => h o (List.mem_cons_of_mem _ ho)
    calc (applyOps fs (op :: rest)).live
        = (applyOps (applyFOp fs op) rest).live := rfl
      _ = (applyFOp fs op).live := h1
      _ = fs.live := live_applyFOp_of_target_ne fs (h op (List.mem_cons_self _ _))

theorem applyOps_append (fs : FS) (a b : List FOp) :
    applyOps fs (a ++ b) = applyOps (applyOps fs a) b := by
  simp [applyOps, List.foldl_append]

theorem applyOps_archiveOps (fs : FS) (pairs : List (String × List Record)) :
    applyOps fs (archiveOps pairs) = writeArchives fs pairs := by
  induction pairs generalizing fs with
  | nil => rfl
  | cons p rest ih =>
    have h1 : applyFOp (applyFOp fs (FOp.header (FileId.archive p.1)))
        (FOp.append (FileId.archive p.1) (sortByTime p.2)) =
        setArchive fs p.1 (sortByTime p.2) := by
      show setArchive (setArchive fs p.1 []) p.1
          (getArchive (setArchive fs p.1 []) p.1 ++ sortByTime p.2) = _
      rw [getArchive_setArchive_self, List.nil_append, setArchive_setArchive]
    calc applyOps fs (archiveOps ((p.1, p.2) :: rest))
        = applyOps (applyFOp (applyFOp fs (FOp.header (FileId.archive p.1)))
            (FOp.append (FileId.archive p.1) (sortByTime p.2))) (archiveOps rest) := rfl
      _ = applyOps (setArchive fs p.1 (sortByTime p.2)) (archiveOps rest) := by rw [h1]
      _ = writeArchives (setArchive fs p.1 (sortByTime p.2)) rest := ih _
      _ = writeArchives fs ((p.1, p.2) :: rest) := rfl

/-- The pure state transformer and the write trace agree: applying the
trace of primitive writes to the initial state yields exactly the state
`performRollover` computes. -/
theorem applyOps_rolloverOps (ck : String) (fs : FS) :
    applyOps fs (rolloverOps ck fs.live) = performRollover ck fs := by
  cases hl : fs.live with
  | none => simp [rolloverOps, performRollover, hl, applyOps]
  | some data =>
    by_cases hne : data = []
    · subst hne
      simp [rolloverOps, performRollover, hl, applyOps]
    · rw [rolloverOps_eq rfl hne, performRollover_eq hl hne]
      by_cases hroll : (groupByMonth data).filter (fun p => p.1 ≠ ck) = []
      · rw [if_pos hroll, if_pos hroll, hroll]
        rfl
      · rw [if_neg hroll, if_neg hroll]
        rw [applyOps_append, applyOps_archiveOps]
        by_cases hcur : (getEntry (groupByMonth data) ck).getD [] = []
        · rw [if_pos hcur, if_pos hcur]
          rfl
        · rw [if_neg hcur, if_neg hcur]
          show { writeArchives fs ((groupByMonth data).filter fun p => p.1 ≠ ck) with
              live := some ([] ++ sortByTime ((getEntry (groupByMonth data) ck).getD [])) } = _
          rw [List.nil_append]

/-! ### Helper lemmas about the rollover's result -/

theorem getEntry_eq_of_mem_of_nodup {acc : List (String × List Record)}
    (hnd : (acc.map Prod.fst).Nodup) {p : String × List Record}
    (hp : p ∈ acc) : getEntry acc p.1 = some p.2 := by
  induction acc with
  | nil => cases hp
  | cons q rest ih =>
    simp only [List.map_cons, List.nodup_cons] at hnd
    rcases List.mem_cons.mp hp with rfl | hp
    · rw [getEntry, if_pos rfl]
    · have hq : q.1 ≠ p.1 := by
        intro h
        exact hnd.1 (by rw [h]; exact List.mem_map_of_mem Prod.fst hp)
      rw [getEntry, if_neg hq, ih hnd.2 hp]

theorem nonCur_eq_nil {l : List Record} {ck : String}
    (h : ∀ r ∈ l, getMonthKey r.ts = ck) :
    (groupByMonth l).filter (fun p => p.1 ≠ ck) = [] := by
  rw [List.filter_eq_nil_iff]
  intro p hp
  have hk : p.1 ∈ (groupByMonth l).map Prod.fst :=
    List.mem_map_of_mem Prod.fst hp
  rcases keys_groupByMonth hk with ⟨r, hr, hrk⟩
  have : p.1 = ck := by rw [← hrk]; exact h r hr
  simp [this]

theorem mem_cur_month {l : List Record} {ck : String} {r : Record}
    (h : r ∈ (getEntry (groupByMonth l) ck).getD []) :
    getMonthKey r.ts = ck := by
  cases he : getEntry (groupByMonth l) ck with
  | none =>
    rw [he] at h
    cases h
  | some rs =>
    rw [he] at h
    exact wellKeyed_groupByMonth l (ck, rs) (mem_of_getEntry_eq_some he) r h

theorem mem_nonCur_of_getEntry {l : List Record} {ck k : String}
    {rs : List Record} (hk : k ≠ ck)
    (h : getEntry (groupByMonth l) k = some rs) :
    (k, rs) ∈ (groupByMonth l).filter (fun p => p.1 ≠ ck) :=
  List.mem_filter.mpr ⟨mem_of_getEntry_eq_some h, by simp [hk]⟩

theorem nodupKeys_nonCur (l : List Record) (ck : String) :
    ((((groupByMonth l).filter fun p => p.1 ≠ ck).map Prod.fst)).Nodup :=
  ((List.filter_sublist (groupByMonth l)).map Prod.fst).nodup
    (nodupKeys_groupByMonth l)

/-- After a rollover every record of the live store has the current
month key, whatever the input state was. -/
theorem liveRecs_performRollover (ck : String) (fs : FS) :
    ∀ r ∈ liveRecs (performRollover ck fs), getMonthKey r.ts = ck := by
  intro r hr
  cases hl : fs.live with
  | none =>
    rw [performRollover_none hl] at hr
    simp [liveRecs, hl] at hr
  | some data =>
    by_cases hne : data = []
    · subst hne
      rw [performRollover_emptyLive hl] at hr
      simp [liveRecs, hl] at hr
    · rw [performRollover_eq hl hne] at hr
      by_cases hroll : (groupByMonth data).filter (fun p => p.1 ≠ ck) = []
      · rw [if_pos hroll] at hr
        simp only [liveRecs, live_writeArchives, hl, Option.getD_some] at hr
        by_contra hck
        have hmem := mem_group_of_mem hr
        cases he : getEntry (groupByMonth data) (getMonthKey r.ts) with
        | none =>
          rw [he] at hmem
          cases hmem
        | some rs =>
          have hin : (getMonthKey r.ts, rs) ∈
              (groupByMonth data).filter (fun p => p.1 ≠ ck) :=
            mem_nonCur_of_getEntry hck he
          rw [hroll] at hin
          cases hin
      · rw [if_neg hroll] at hr
        by_cases hcur : (getEntry (groupByMonth data) ck).getD [] = []
        · rw [if_pos hcur] at hr
          simp [liveRecs] at hr
        · rw [if_neg hcur] at hr
          simp only [liveRecs, Option.getD_some] at hr
          exact mem_cur_month (mem_sortByTime.mp hr)

/-- A non-current month partition is written to its archive verbatim
(sorted): the archive's previous content does not survive. -/
theorem getArchive_rollover_of_getEntry {ck : String} {fs : FS}
    {l : List Record} (hl : fs.live = some l) {k : String}
    {rs : List Record} (hk : k ≠ ck)
    (hrs : getEntry (groupByMonth l) k = some rs) :
    getArchive (performRollover ck fs) k = sortByTime rs := by
  have hne : l ≠ [] := by
    intro h
    subst h
    cases hrs
  have hmem := mem_nonCur_of_getEntry hk hrs
  have hfil : (groupByMonth l).filter (fun p => p.1 ≠ ck) ≠ [] := by
    intro h
    rw [h] at hmem
    cases hmem
  have harch := getArchive_writeArchives_of_mem fs (nodupKeys_nonCur l ck) hmem
  rw [performRollover_eq hl hne, if_neg hfil]
  by_cases hcur : (getEntry (groupByMonth l) ck).getD [] = []
  · rw [if_pos hcur]
    exact harch
  · rw [if_neg hcur]
    exact harch

/-- Archives of months that have no non-current partition keep their
previous contents. -/
theorem getArchive_rollover_of_not_written {ck : String} {fs : FS}
    {l : List Record} (hl : fs.live = some l) (hne : l ≠ []) {k : String}
    (hk : k ∉ ((groupByMonth l).filter fun p => p.1 ≠ ck).map Prod.fst) :
    getArchive (performRollover ck fs) k = getArchive fs k := by
  have harch := getArchive_writeArchives_of_not_mem fs hk
  rw [performRollover_eq hl hne]
  by_cases hroll : (groupByMonth l).filter (fun p => p.1 ≠ ck) = []
  · rw [if_pos hroll, hroll]
    rfl
  · rw [if_neg hroll]
    by_cases hcur : (getEntry (groupByMonth l) ck).getD [] = []
    · rw [if_pos hcur]
      exact harch
    · rw [if_neg hcur]
      exact harch

theorem upsertHourly_last_some {store : List Record} {last : Record}
    (h : store.getLast? = some last) (cand : Record) :
    upsertHourly store cand =
      if last.ts.hour = cand.ts.hour ∧ last.ts.year = cand.ts.year ∧
          last.ts.month = cand.ts.month ∧ last.ts.day = cand.ts.day
      then (store, false) else (store ++ [cand], true) := by
  rw [upsertHourly, h]

/-! ### Concrete fixtures used by counterexamples and witnesses -/

/-- The June record of the spec's rollover scenario:
`('2025-06-30T23:00:00Z', 0.04)`. -/
def junRec : Record := { ts := ⟨2025, 6, 30, 23, 0, 0⟩, preRate := "0.04" }

/-- The July record of the spec's rollover scenario:
`('2025-07-01T01:00:00Z', 0.05)`. -/
def julRec : Record := { ts := ⟨2025, 7, 1, 1, 0, 0⟩, preRate := "0.05" }

/-- A June record already sitting in the `2025-06` archive, in a bucket
disjoint from `junRec`'s. -/
def junArch : Record := { ts := ⟨2025, 6, 1, 10, 0, 0⟩, preRate := "0.03" }

/-- State with a June+July live store and a `2025-06` archive that
already holds `junArch`. -/
def fsC1 : FS :=
  { live := some [junRec, julRec], archives := [("2025-06", [junArch])] }

/-- State with a June+July live store and no archives. -/
def fs6 : FS := { live := some [junRec, julRec], archives := [] }

/-- The existing store record of the spec's backfill scenario:
`('2025-07-01T00:00:00Z', 0.05)`. -/
def exRec : Record := { ts := ⟨2025, 7, 1, 0, 0, 0⟩, preRate := "0.05" }

/-- First backfill batch record: `('2025-07-01T00:00:00Z', 0.06)`. -/
def b1Rec : Record := { ts := ⟨2025, 7, 1, 0, 0, 0⟩, preRate := "0.06" }

/-- Second backfill batch record: `('2025-07-01T01:00:00Z', 0.07)`. -/
def b2Rec : Record := { ts := ⟨2025, 7, 1, 1, 0, 0⟩, preRate := "0.07" }

/-- An existing store record in the hour-2 bucket, disjoint from the
batch records' buckets. -/
def ex2Rec : Record := { ts := ⟨2025, 7, 1, 2, 0, 0⟩, preRate := "0.05" }

/-- Target store of the spec's backfill scenario. -/
def fsB : FS := { live := some [exRec], archives := [] }

/-- Target store holding only the hour-2 record. -/
def fsB2 : FS := { live := some [ex2Rec], archives := [] }

/-- Hour-0 record, not in last position of the upsert store. -/
def r1Rec : Record := { ts := ⟨2025, 7, 1, 0, 5, 0⟩, preRate := "0.05" }

/-- Candidate in the same hour-0 bucket as `r1Rec`. -/
def r2Rec : Record := { ts := ⟨2025, 7, 1, 0, 45, 0⟩, preRate := "0.06" }

/-- Hour-1 record sitting after `r1Rec` in the upsert store. -/
def r3Rec : Record := { ts := ⟨2025, 7, 1, 1, 5, 0⟩, preRate := "0.07" }

/-- A malformed CSV row: unparseable timestamp and non-finite rate. -/
def badRow : RawRecord := { timestamp := "garbage", preRate := "NaN" }

/-! ### C1 - rollover archive merge -/

/-- C1 counterexample: rolling over `fsC1` (current month `2025-07`)
overwrites the `2025-06` archive with the June partition `[junRec]`
alone; the previously archived `junArch` — which the spec's merge policy
would keep, its bucket being disjoint — is lost.  This refutes C1's
claim that the resulting archive equals the deduplicated union of the
previous archive contents and the partition. -/
theorem rollover_archive_merge_counterexample :
    getArchive (performRollover "2025-07" fsC1) "2025-06" = [junRec]
    ∧ junArch ∈ specMergeDedup (getArchive fsC1 "2025-06") [junRec]
    ∧ junArch ∉ getArchive (performRollover "2025-07" fsC1) "2025-06" := by
  decide

/-- C1 (amended): for every rollover invocation and every month
partition whose key is not the current UTC month, the resulting archive
store for that month equals exactly the partition's records sorted
ascending by timestamp; records previously present in that archive are
discarded (the archive is overwritten, not merged). -/
theorem rollover_archive_overwrite {ck : String} {fs : FS}
    {l : List Record} (hl : fs.live = some l) {k : String}
    {rs : List Record} (hk : k ≠ ck)
    (hrs : getEntry (groupByMonth l) k = some rs) :
    getArchive (performRollover ck fs) k = sortByTime rs :=
  getArchive_rollover_of_getEntry hl hk hrs

/-- Witness for C1's amended theorem at the concrete `fsC1` input. -/
theorem rollover_archive_overwrite_witness :
    getArchive (performRollover "2025-07" fsC1) "2025-06" =
      sortByTime [junRec] :=
  @rollover_archive_overwrite "2025-07" fsC1 [junRec, julRec] rfl "2025-06"
    [junRec] (by decide) (by decide)

/-! ### C2 - backfill merge -/

/-- C2 counterexample: backfilling batch `[b1Rec]` into a store whose
existing content `[ex2Rec]` occupies a disjoint hour bucket discards the
existing record entirely: the result is the batch alone, not the
deduplicated union (which keeps `ex2Rec`). -/
theorem backfill_union_counterexample :
    (backfill fsB2 [b1Rec]).live = some [b1Rec]
    ∧ ex2Rec ∈ specMergeDedup (liveRecs fsB2) [b1Rec]
    ∧ ex2Rec ∉ liveRecs (backfill fsB2 [b1Rec]) := by
  decide

/-- C2 (amended): the backfill ignores the target store's existing
contents: for every non-empty batch it overwrites the store with exactly
the batch sorted ascending (an empty batch leaves the state untouched
per the early return).  In the spec's concrete scenario the result has
exactly 2 records sorted ascending — but they are the sorted batch, with
the existing hour-0 record replaced rather than merged. -/
theorem backfill_overwrites {fs : FS} {batch : List Record}
    (hb : batch ≠ []) :
    (backfill fs batch).live = some (sortByTime batch)
    ∧ (backfill fs batch).archives = fs.archives
    ∧ liveRecs (backfill fsB [b1Rec, b2Rec]) = [b1Rec, b2Rec]
    ∧ (liveRecs (backfill fsB [b1Rec, b2Rec])).length = 2
    ∧ List.Sorted timeLE (liveRecs (backfill fsB [b1Rec, b2Rec])) := by
  refine ⟨?_, ?_, by decide, by decide, by decide⟩
  · rw [backfill, if_neg hb]
  · rw [backfill, if_neg hb]

/-- Witness for C2's amended theorem at the concrete `fsB` input. -/
theorem backfill_overwrites_witness :
    (backfill fsB [b1Rec, b2Rec]).live =
      some (sortByTime [b1Rec, b2Rec]) :=
  (@backfill_overwrites fsB [b1Rec, b2Rec] (by decide)).1

/-! ### C3 - hourly dedup -/

/-- C3 counterexample: with `r1Rec` (hour 0) followed by `r3Rec`
(hour 1) in the store, candidate `r2Rec` shares `r1Rec`'s bucket, yet
the upsert appends it and reports it written: the duplicate check
inspects only the LAST line of the CSV, so the claim's "regardless of
r1's position" fails. -/
theorem upsert_dedup_counterexample :
    bucketOf r1Rec.ts = bucketOf r2Rec.ts
    ∧ (upsertHourly [r1Rec, r3Rec] r2Rec).1 = [r1Rec, r3Rec, r2Rec]
    ∧ (upsertHourly [r1Rec, r3Rec] r2Rec).1.length = 3
    ∧ (upsertHourly [r1Rec, r3Rec] r2Rec).2 = true := by
  decide

/-- C3 (amended): when the record occupying the candidate's (UTC year,
month, day, hour) bucket is the LAST record of the store, the upsert
leaves the store unchanged and reports a skipped duplicate; a same-bucket
record in any earlier position does not suppress the insert. -/
theorem upsert_dedup_last {store : List Record} {r1 r2 : Record}
    (hlast : store.getLast? = some r1)
    (hb : bucketOf r1.ts = bucketOf r2.ts) :
    upsertHourly store r2 = (store, false) := by
  simp only [bucketOf, Prod.mk.injEq] at hb
  rw [upsertHourly, hlast]
  have heq :
      (if r1.ts.hour = r2.ts.hour ∧ r1.ts.year = r2.ts.year ∧
          r1.ts.month = r2.ts.month ∧ r1.ts.day = r2.ts.day
        then (store, false) else (store ++ [r2], true)) = (store, false) :=
    if_pos ⟨hb.2.2.2, hb.1, hb.2.1, hb.2.2.1⟩
  exact heq

/-- Witness for C3's amended theorem: `r2Rec` against a store ending in
its bucket-mate `r1Rec`. -/
theorem upsert_dedup_last_witness :
    upsertHourly [r1Rec] r2Rec = ([r1Rec], false) :=
  @upsert_dedup_last [r1Rec] r1Rec r2Rec (by decide) (by decide)

/-! ### C4 - month partition completeness -/

/-- C4: after a rollover every record remaining in the live store has
the invocation-time current UTC month; every record of the input live
store whose own month is not current ends up in the archive named by its
own month key and in no other archive (given it was not already sitting
in a foreign archive); and the spec's concrete June/July scenario
produces live `[julRec]` and archive `2025-06 = [junRec]` with no data
loss. -/
theorem rollover_month_partition {ck : String} {fs : FS}
    {l : List Record} (hl : fs.live = some l) {r : Record} (hr : r ∈ l)
    (hpast : getMonthKey r.ts ≠ ck)
    (hclean : ∀ k, k ≠ getMonthKey r.ts → r ∉ getArchive fs k) :
    (∀ x ∈ liveRecs (performRollover ck fs), getMonthKey x.ts = ck)
    ∧ r ∈ getArchive (performRollover ck fs) (getMonthKey r.ts)
    ∧ (∀ k, k ≠ getMonthKey r.ts →
        r ∉ getArchive (performRollover ck fs) k)
    ∧ performRollover "2025-07" fs6 =
        { live := some [julRec], archives := [("2025-06", [junRec])] } := by
  have hne : l ≠ [] := fun h => by
    subst h
    cases hr
  refine ⟨liveRecs_performRollover ck fs, ?_, ?_, by decide⟩
  · have hmem := mem_group_of_mem hr
    cases he : getEntry (groupByMonth l) (getMonthKey r.ts) with
    | none =>
      rw [he] at hmem
      cases hmem
    | some rs =>
      rw [he] at hmem
      rw [getArchive_rollover_of_getEntry hl hpast he]
      exact mem_sortByTime.mpr hmem
  · intro k hk
    by_cases hkm : k ∈ ((groupByMonth l).filter fun p => p.1 ≠ ck).map Prod.fst
    · rcases List.mem_map.mp hkm with ⟨p, hp, hpk⟩
      have hpg : p ∈ groupByMonth l := (List.mem_filter.mp hp).1
      have hpne : p.1 ≠ ck := by
        have := (List.mem_filter.mp hp).2
        simpa using this
      have he : getEntry (groupByMonth l) p.1 = some p.2 :=
        getEntry_eq_of_mem_of_nodup (nodupKeys_groupByMonth l) hpg
      rw [← hpk, getArchive_rollover_of_getEntry hl hpne he]
      intro hrin
      have hrp := mem_sortByTime.mp hrin
      have := wellKeyed_groupByMonth l p hpg r hrp
      rw [hpk] at this
      exact hk this.symm
    · rw [getArchive_rollover_of_not_written hl hne hkm]
      exact hclean k hk

/-- Witness for C4 at the spec's concrete June/July scenario. -/
theorem rollover_month_partition_witness :
    junRec ∈ getArchive (performRollover "2025-07" fs6) (getMonthKey junRec.ts)
    ∧ performRollover "2025-07" fs6 =
        { live := some [julRec], archives := [("2025-06", [junRec])] } := by
  have h := @rollover_month_partition "2025-07" fs6 [junRec, julRec] rfl junRec
    (by decide) (by decide)
    (fun k _ => by simp [fs6, getArchive, getEntry])
  exact ⟨h.2.1, h.2.2.2⟩

/-! ### C5 - idempotent rollover -/

/-- C5: the rollover is idempotent — for any store state, running
`performRollover` twice with the same current month key produces exactly
the state the first run produced; the second run changes nothing. -/
theorem rollover_idempotent (ck : String) (fs : FS) :
    performRollover ck (performRollover ck fs) = performRollover ck fs := by
  cases hl : fs.live with
  | none =>
    have h1 : performRollover ck fs = fs := performRollover_none hl
    rw [h1]
    exact h1
  | some data =>
    by_cases hne : data = []
    · subst hne
      have h1 : performRollover ck fs = fs := performRollover_emptyLive hl
      rw [h1]
      exact h1
    · by_cases hroll : (groupByMonth data).filter (fun p => p.1 ≠ ck) = []
      · have h1 : performRollover ck fs = fs := by
          rw [performRollover_eq hl hne, if_pos hroll, hroll]
          rfl
        rw [h1]
        exact h1
      · by_cases hcur : (getEntry (groupByMonth data) ck).getD [] = []
        · have h1 : performRollover ck fs =
              { writeArchives fs ((groupByMonth data).filter fun p => p.1 ≠ ck) with
                  live := some [] } := by
            rw [performRollover_eq hl hne, if_neg hroll, if_pos hcur]
          rw [h1]
          exact performRollover_emptyLive rfl
        · have h1 : performRollover ck fs =
              { writeArchives fs ((groupByMonth data).filter fun p => p.1 ≠ ck) with
                  live := some (sortByTime ((getEntry (groupByMonth data) ck).getD [])) } := by
            rw [performRollover_eq hl hne, if_neg hroll, if_neg hcur]
          rw [h1]
          have hne2 : sortByTime ((getEntry (groupByMonth data) ck).getD []) ≠ [] := by
            rw [Ne, sortByTime_eq_nil]
            exact hcur
          have hall : ∀ r ∈ sortByTime ((getEntry (groupByMonth data) ck).getD []),
              getMonthKey r.ts = ck :=
            fun r hrr => mem_cur_month (mem_sortByTime.mp hrr)
          rw [performRollover_eq rfl hne2, if_pos (nonCur_eq_nil hall),
            nonCur_eq_nil hall]
          rfl

/-! ### C10 - all-current-month rollover performs no writes -/

/-- C10: when the live store is non-empty and every record in it has the
invocation-time current UTC month, the rollover performs no file writes
at all — its write trace is empty — and the state (live store and all
archives) is left untouched. -/
theorem rollover_noop_frame {ck : String} {fs : FS} {l : List Record}
    (hl : fs.live = some l) (hne : l ≠ [])
    (hcur : ∀ r ∈ l, getMonthKey r.ts = ck) :
    rolloverOps ck fs.live = [] ∧ performRollover ck fs = fs := by
  have hfil := nonCur_eq_nil hcur
  constructor
  · rw [hl, rolloverOps_eq rfl hne, if_pos hfil]
  · rw [performRollover_eq hl hne, if_pos hfil, hfil]
    rfl

/-- Witness for C10 at a concrete all-July live store. -/
theorem rollover_noop_frame_witness :
    rolloverOps "2025-07" (FS.mk (some [julRec]) []).live = []
    ∧ performRollover "2025-07" (FS.mk (some [julRec]) []) =
        FS.mk (some [julRec]) [] :=
  @rollover_noop_frame "2025-07" (FS.mk (some [julRec]) []) [julRec] rfl
    (by decide) (by decide)

/-! ### C6 - failure semantics of the rollover -/

/-- C6 counterexample: rolling over `fs6` (June+July live store, current
month `2025-07`) and failing after the third primitive write — i.e.
after the live store's header truncation but before its record append —
leaves the live store header-only: its previous content is NOT intact,
and the July record is recoverable from neither the live store nor any
archive.  This refutes C6's claim that any I/O failure leaves the live
store's previous content intact. -/
theorem rollover_partial_failure_counterexample :
    (applyOps fs6 ((rolloverOps "2025-07" fs6.live).take 3)).live = some []
    ∧ (applyOps fs6 ((rolloverOps "2025-07" fs6.live).take 3)).live ≠ fs6.live
    ∧ julRec ∉ liveRecs (applyOps fs6 ((rolloverOps "2025-07" fs6.live).take 3))
    ∧ (applyOps fs6 ((rolloverOps "2025-07" fs6.live).take 3)).archives =
        [("2025-06", [junRec])] := by
  decide

/-- C6 (amended): in the rollover's write trace every archive write
precedes every live-store write, and an I/O failure at any point before
the first live-store write aborts the rollover with the live store's
previous content intact.  (A failure between the live store's header
truncation and its record append, however, leaves the live store
header-only.) -/
theorem rollover_write_ordering (ck : String) (live : Option (List Record)) :
    (∃ a b, rolloverOps ck live = a ++ b
      ∧ (∀ op ∈ a, op.target ≠ FileId.live)
      ∧ (∀ op ∈ b, op.target = FileId.live))
    ∧ ∀ (fs : FS) (n : Nat),
        (∀ op ∈ (rolloverOps ck live).take n, op.target ≠ FileId.live) →
        (applyOps fs ((rolloverOps ck live).take n)).live = fs.live := by
  constructor
  · cases live with
    | none =>
      exact ⟨[], [], rfl, fun op h => absurd h (List.not_mem_nil op),
        fun op h => absurd h (List.not_mem_nil op)⟩
    | some data =>
      by_cases hne : data = []
      · subst hne
        exact ⟨[], [], rfl, fun op h => absurd h (List.not_mem_nil op),
          fun op h => absurd h (List.not_mem_nil op)⟩
      · rw [rolloverOps_eq rfl hne]
        by_cases hroll : (groupByMonth data).filter (fun p => p.1 ≠ ck) = []
        · rw [if_pos hroll]
          exact ⟨[], [], rfl, fun op h => absurd h (List.not_mem_nil op),
            fun op h => absurd h (List.not_mem_nil op)⟩
        · rw [if_neg hroll]
          refine ⟨archiveOps ((groupByMonth data).filter fun p => p.1 ≠ ck),
            _, rfl, fun op h => target_ne_live_of_mem_archiveOps h, ?_⟩
          by_cases hcur : (getEntry (groupByMonth data) ck).getD [] = []
          · rw [if_pos hcur]
            intro op h
            rcases List.mem_singleton.mp h with rfl
            rfl
          · rw [if_neg hcur]
            intro op h
            rcases List.mem_cons.mp h with rfl | h
            · rfl
            · rcases List.mem_singleton.mp h with rfl
              rfl
  · intro fs n h
    exact live_applyOps_of_no_live fs h

/-- Witness for C6's amended theorem: the trace prefix of length 2
(the complete `2025-06` archive write) leaves `fs6`'s live store
untouched. -/
theorem rollover_write_ordering_witness :
    (applyOps fs6 ((rolloverOps "2025-07" (some [junRec, julRec])).take 2)).live
      = fs6.live :=
  (rollover_write_ordering "2025-07" (some [junRec, julRec])).2 fs6 2 (by decide)

/-! ### C7 - sort invariant of every mutating operation -/

/-- C7: every mutating operation leaves the touched store sorted
non-decreasingly by timestamp in its persisted form: every archive the
rollover changes and the live store the rollover rewrites are sorted;
the backfill overwrite is sorted; and the hourly append keeps a sorted
store sorted whenever the new sample's timestamp is not earlier than the
persisted ones (as holds in operation, where the sample is stamped with
the invocation-time clock). -/
theorem mutation_sort_invariant :
    (∀ (ck : String) (fs : FS) (k : String),
        getArchive (performRollover ck fs) k ≠ getArchive fs k →
        List.Sorted timeLE (getArchive (performRollover ck fs) k))
    ∧ (∀ (ck : String) (fs : FS),
        liveRecs (performRollover ck fs) ≠ liveRecs fs →
        List.Sorted timeLE (liveRecs (performRollover ck fs)))
    ∧ (∀ (fs : FS) (batch : List Record), batch ≠ [] →
        List.Sorted timeLE (liveRecs (backfill fs batch)))
    ∧ (∀ (store : List Record) (cand : Record), List.Sorted timeLE store →
        (∀ r ∈ store, timeLE r cand) →
        List.Sorted timeLE (upsertHourly store cand).1) := by
  refine ⟨?_, ?_, ?_, ?_⟩
  · intro ck fs k hch
    cases hl : fs.live with
    | none =>
      rw [performRollover_none hl] at hch
      exact absurd rfl hch
    | some data =>
      by_cases hne : data = []
      · subst hne
        rw [performRollover_emptyLive hl] at hch
        exact absurd rfl hch
      · by_cases hkm : k ∈ ((groupByMonth data).filter fun p => p.1 ≠ ck).map Prod.fst
        · rcases List.mem_map.mp hkm with ⟨p, hp, hpk⟩
          have hpg : p ∈ groupByMonth data := (List.mem_filter.mp hp).1
          have hpne : p.1 ≠ ck := by
            have := (List.mem_filter.mp hp).2
            simpa using this
          have he : getEntry (groupByMonth data) p.1 = some p.2 :=
            getEntry_eq_of_mem_of_nodup (nodupKeys_groupByMonth data) hpg
          rw [← hpk, getArchive_rollover_of_getEntry hl hpne he]
          exact sorted_sortByTime p.2
        · rw [getArchive_rollover_of_not_written hl hne hkm] at hch
          exact absurd rfl hch
  · intro ck fs hch
    cases hl : fs.live with
    | none =>
      rw [performRollover_none hl] at hch
      exact absurd rfl hch
    | some data =>
      by_cases hne : data = []
      · subst hne
        rw [performRollover_emptyLive hl] at hch
        exact absurd rfl hch
      · rw [performRollover_eq hl hne]
        rw [performRollover_eq hl hne] at hch
        by_cases hroll : (groupByMonth data).filter (fun p => p.1 ≠ ck) = []
        · rw [if_pos hroll] at hch ⊢
          rw [hroll] at hch
          exact absurd rfl hch
        · rw [if_neg hroll] at hch ⊢
          by_cases hcur : (getEntry (groupByMonth data) ck).getD [] = []
          · rw [if_pos hcur]
            exact List.sorted_nil
          · rw [if_neg hcur]
            exact sorted_sortByTime _
  · intro fs batch hb
    rw [backfill, if_neg hb]
    exact sorted_sortByTime batch
  · intro store cand hs hle
    cases hlast : store.getLast? with
    | none =>
      have hnil : store = [] := List.getLast?_eq_none_iff.mp hlast
      subst hnil
      exact List.sorted_singleton cand
    | some last =>
      rw [upsertHourly_last_some hlast cand]
      by_cases hb : last.ts.hour = cand.ts.hour ∧ last.ts.year = cand.ts.year ∧
          last.ts.month = cand.ts.month ∧ last.ts.day = cand.ts.day
      · rw [if_pos hb]
        exact hs
      · rw [if_neg hb]
        refine List.pairwise_append.mpr ⟨hs, List.pairwise_singleton _ _, ?_⟩
        intro a ha b hbb
        rcases List.mem_singleton.mp hbb with rfl
        exact hle a ha

/-- Witness for C7 at concrete mutations: the archive written by the
June/July rollover, a concrete backfill overwrite, and a concrete hourly
append onto a sorted store. -/
theorem mutation_sort_invariant_witness :
    List.Sorted timeLE (getArchive (performRollover "2025-07" fs6) "2025-06")
    ∧ List.Sorted timeLE (liveRecs (backfill fsB [b1Rec, b2Rec]))
    ∧ List.Sorted timeLE (upsertHourly [r1Rec] r3Rec).1 :=
  ⟨mutation_sort_invariant.1 "2025-07" fs6 "2025-06" (by decide),
    mutation_sort_invariant.2.2.1 fsB [b1Rec, b2Rec] (by decide),
    mutation_sort_invariant.2.2.2 [r1Rec] r3Rec (by decide) (by decide)⟩

/-! ### C8 - load semantics -/

/-- C8 counterexample: loading a present file whose single row has an
unparseable timestamp and a non-finite rate succeeds and passes the row
through unvalidated — it does not fail with an IOError as C8 claims. -/
theorem load_malformed_counterexample :
    readCsvData (some [badRow]) = Except.ok [badRow]
    ∧ ∀ e : String, readCsvData (some [badRow]) ≠ Except.error e := by
  refine ⟨rfl, ?_⟩
  intro e h
  exact Except.noConfusion h

/-- C8 (amended): `readCsvData` returns an empty sequence (not an
error) when the file is missing, and when the file is present it
succeeds unconditionally, passing every row — malformed or not — through
to the caller without validation. -/
theorem load_total (rows : List RawRecord) :
    readCsvData none = Except.ok ([] : List RawRecord)
    ∧ readCsvData (some rows) = Except.ok rows :=
  ⟨rfl, rfl⟩

/-! ### C9 - finite-value rejection -/

/-- C9 counterexample: the historical-backfill path converts an API row
with rate `"NaN"` without any finiteness check and writes it to the
store — a non-finite sample reaches storage, refuting C9's claim that
every ingestion path rejects such samples before writing. -/
theorem backfill_nonfinite_counterexample :
    parseFloatClass "NaN" = FloatClass.nan
    ∧ convertHistory [(⟨2025, 7, 1, 0, 0, 0⟩, "NaN")] =
        [{ ts := ⟨2025, 7, 1, 0, 0, 0⟩, preRate := "NaN" }]
    ∧ (backfill (FS.mk (some []) [])
        (convertHistory [(⟨2025, 7, 1, 0, 0, 0⟩, "NaN")])).live =
        some [{ ts := ⟨2025, 7, 1, 0, 0, 0⟩, preRate := "NaN" }] := by
  decide

/-- C9 (amended): the LIVE ingestion path rejects any rate string that
does not parse to a finite number with a validation error before any
write occurs; the historical-backfill path performs no finiteness
validation and writes the converted batch — whatever its rate strings —
verbatim (sorted) to storage. -/
theorem finite_validation_asymmetry :
    (∀ (p : String) (t : TS) (store : List Record),
        parseFloatClass p ≠ FloatClass.finite →
        ingestOne p t store = Except.error "Invalid preRate value")
    ∧ (∀ (fs : FS) (rows : List (TS × String)), convertHistory rows ≠ [] →
        (backfill fs (convertHistory rows)).live =
          some (sortByTime (convertHistory rows))) := by
  constructor
  · intro p t store h
    rw [ingestOne, if_neg h]
  · intro fs rows h
    rw [backfill, if_neg h]

/-- Witness for C9's amended theorem: `"NaN"` is rejected by the live
path and written by the backfill path. -/
theorem finite_validation_asymmetry_witness :
    ingestOne "NaN" ⟨2025, 7, 1, 0, 0, 0⟩ [] =
      Except.error "Invalid preRate value"
    ∧ (backfill (FS.mk (some []) [])
        (convertHistory [(⟨2025, 7, 1, 0, 0, 0⟩, "NaN")])).live =
        some (sortByTime (convertHistory [(⟨2025, 7, 1, 0, 0, 0⟩, "NaN")])) :=
  ⟨finite_validation_asymmetry.1 "NaN" ⟨2025, 7, 1, 0, 0, 0⟩ [] (by decide),
    finite_validation_asymmetry.2 (FS.mk (some []) [])
      [(⟨2025, 7, 1, 0, 0, 0⟩, "NaN")] (by decide)⟩

end OkxRate
